import Mathlib

/-!
Shallow embedding of the `copy_arrayvec` crate: the fixed-capacity inline
container `CopyArrayVec<T: Copy, const MAX: usize>` from `src/lib.rs` and its
serde adapter from `src/serde.rs`, together with proofs settling the frozen
claims about the specification.

Modelling conventions:
* the backing array `[MaybeUninit<T>; MAX]` becomes a `List (Option T)` with
  one entry per slot, `none` standing for an uninitialized slot;
* the const generic `MAX` becomes the field `maxCap`, so containers of
  different capacity live in one Lean type and can be compared;
* an operation that can panic returns `Option _`, with `none` for the panic;
  `Result<(), T>` becomes `Except T Unit`;
* `std::ptr::copy` (memmove semantics) becomes `ptr_copy`, where a read from
  outside the buffer — i.e. from memory the container does not own — yields
  `none`, the same value as an uninitialized slot.
-/

deriving instance DecidableEq for Except

/-- Model of the Rust struct `CopyArrayVec<T: Copy, const MAX: usize>`:
`maxCap` is the const generic `MAX`, `buf` the backing array of `MAX` slots
(`none` = uninitialized `MaybeUninit`), `len` the length field. -/
structure CopyArrayVec (T : Type) where
  maxCap : Nat
  buf : List (Option T)
  len : Nat
deriving DecidableEq

namespace CopyArrayVec

variable {T : Type}

/-- Well-formedness: the invariants the Rust type maintains — the buffer has
exactly `MAX` slots, `len ≤ MAX`, and every slot below `len` is initialized. -/
def WF (c : CopyArrayVec T) : Prop :=
  c.buf.length = c.maxCap ∧ c.len ≤ c.maxCap ∧
    ∀ k, k < c.len → (c.buf.getD k none).isSome = true

instance (c : CopyArrayVec T) : Decidable (WF c) := by
  unfold WF; infer_instance

/-- Model of `Default::default` / `CopyArrayVec::new`: every slot
uninitialized, `len = 0`. -/
def new (T : Type) (MAX : Nat) : CopyArrayVec T :=
  ⟨MAX, List.replicate MAX none, 0⟩

/-- Model of `capacity()`: returns the const generic `MAX`. -/
def capacity (c : CopyArrayVec T) : Nat := c.maxCap

/-- Model of `is_empty()`. -/
def is_empty (c : CopyArrayVec T) : Bool := c.len == 0

/-- Model of `capacity_remaining()`: `MAX - self.len()`. -/
def capacity_remaining (c : CopyArrayVec T) : Nat := c.maxCap - c.len

/-- Model of `is_full()`: `self.capacity_remaining() == 0`. -/
def is_full (c : CopyArrayVec T) : Bool := c.capacity_remaining == 0

/-- Model of `Deref::deref`: the live prefix `[0, len)` of the backing buffer,
seen at slot granularity (each entry still an `Option T` cell). -/
def deref (c : CopyArrayVec T) : List (Option T) := c.buf.take c.len

/-- Model of `std::ptr::copy(src, dst, count)` on the backing buffer
(memmove semantics): each slot `k` in the destination window
`[dst, dst + count)` receives the value previously held at `src + (k - dst)`;
every other slot keeps its value.  A source index outside the buffer reads
memory the container does not own; such a read yields `none`. -/
def ptr_copy (buf : List (Option T)) (src dst count : Nat) : List (Option T) :=
  (List.range buf.length).map fun k =>
    if dst ≤ k ∧ k < dst + count then buf.getD (src + (k - dst)) none
    else buf.getD k none

/-- Model of `push(el)`: asserts `self.len() < MAX` (else panic, i.e. `none`),
writes `el` into slot `len`, then increments `len`. -/
def push (c : CopyArrayVec T) (el : T) : Option (CopyArrayVec T) :=
  if c.len < c.maxCap then
    some ⟨c.maxCap, c.buf.set c.len (some el), c.len + 1⟩
  else none

/-- Model of `try_push(el)`: if `capacity_remaining() > 0` behaves as `push`
and returns `Ok(())`, else returns `Err(el)` without mutation. -/
def try_push (c : CopyArrayVec T) (el : T) : Except T Unit × CopyArrayVec T :=
  if 0 < c.capacity_remaining then
    match c.push el with
    | some c2 => (Except.ok (), c2)
    | none => (Except.error el, c)
  else (Except.error el, c)

/-- The source offset of the `ptr::copy` inside `remove`: the code copies from
`buf_p.add(1)`, i.e. from index `i + 1`. -/
def remove_copy_src (i : Nat) : Nat := i + 1

/-- The element count passed to the `ptr::copy` inside `remove`: the code
passes `self.len - i`. -/
def remove_copy_count (len i : Nat) : Nat := len - i

/-- The buffer indices read by a `ptr::copy` with the given source start and
element count: `src, src + 1, …, src + count - 1`. -/
def copy_read_indices (src count : Nat) : List Nat := List.range' src count

/-- The spec's description of `remove`'s block move: it should move exactly
`len - i - 1` elements and every index it reads should lie below `len` (no
read of an uninitialized slot). -/
def remove_touches_only_live (i len : Nat) : Prop :=
  remove_copy_count len i = len - i - 1 ∧
    ∀ j ∈ copy_read_indices (remove_copy_src i) (remove_copy_count len i), j < len

instance (i len : Nat) : Decidable (remove_touches_only_live i len) := by
  unfold remove_touches_only_live; infer_instance

/-- Model of `remove(i)`: `self[i]` panics when `i ≥ len` (outer `none`); the
captured value is the cell at `i` (under `WF` always initialized — the inner
`none` branch is unreachable); then `ptr::copy` shifts `self.len - i` slots
from `i + 1` down to `i`, and `len` is decremented. -/
def remove (c : CopyArrayVec T) (i : Nat) : Option (T × CopyArrayVec T) :=
  if i < c.len then
    match c.buf.getD i none with
    | some v =>
        some (v, ⟨c.maxCap,
          ptr_copy c.buf (remove_copy_src i) i (remove_copy_count c.len i),
          c.len - 1⟩)
    | none => none
  else none

/-- Model of `pop()`: `None` when empty, otherwise `remove(len - 1)`. -/
def pop (c : CopyArrayVec T) : Option (Option T × CopyArrayVec T) :=
  if c.is_empty then some (none, c)
  else
    match c.remove (c.len - 1) with
    | some (v, c2) => some (some v, c2)
    | none => none

/-- Model of `insert(i, value)`: asserts `!is_full()` (else panic); when
`i == len` delegates to `push`; otherwise `ptr::copy` shifts `self.len - i`
slots from `i` up to `i + 1` and `len` is incremented — faithfully to the
source, NO write of `value` into slot `i` takes place on this path.  When
`i > len` the expression `self.len - i` underflows `usize`, a fatal error,
modelled as `none`. -/
def insert (c : CopyArrayVec T) (i : Nat) (value : T) : Option (CopyArrayVec T) :=
  if c.is_full then none
  else if i == c.len then c.push value
  else if i < c.len then
    some ⟨c.maxCap, ptr_copy c.buf i (i + 1) (c.len - i), c.len + 1⟩
  else none

/-- Model of `try_insert(i, value)`: if `is_full()` returns `Err(value)`
without mutation; otherwise delegates to `insert` (whose panic on an
out-of-range `i` propagates as `none`) and returns `Ok(())`. -/
def try_insert (c : CopyArrayVec T) (i : Nat) (value : T) :
    Option (Except T Unit × CopyArrayVec T) :=
  if c.is_full then some (Except.error value, c)
  else
    match c.insert i value with
    | some c2 => some (Except.ok (), c2)
    | none => none

/-- Model of `clear()`: resets `len` to `0`, touching no slot. -/
def clear (c : CopyArrayVec T) : CopyArrayVec T := ⟨c.maxCap, c.buf, 0⟩

/-- Model of the `PartialEq` impl: `self.deref() == other.deref()`, i.e. the
comparison reads only the live slices. -/
def beqv [DecidableEq T] (a b : CopyArrayVec T) : Bool :=
  decide (a.deref = b.deref)

/-- One item fed to a `Hasher`. -/
inductive HashAtom (T : Type) where
  | length (n : Nat) : HashAtom T
  | elem (x : T) : HashAtom T
deriving DecidableEq

/-- Model of the `Hash` impl: `self.deref().hash(state)` — slice hashing
feeds the hasher the live length followed by each live cell in order. -/
def hash_stream (c : CopyArrayVec T) : List (HashAtom (Option T)) :=
  HashAtom.length c.deref.length :: c.deref.map HashAtom.elem

/-- Model of `FromIterator`'s loop (also `Extend`): push each produced element
in order; a `push` panic aborts the whole construction. -/
def push_all : List T → CopyArrayVec T → Option (CopyArrayVec T)
  | [], c => some c
  | x :: xs, c =>
    match c.push x with
    | some c2 => push_all xs c2
    | none => none

/-- Model of `FromIterator::from_iter`: start from `default()` and push every
element of the source in order. -/
def from_iter (T : Type) (MAX : Nat) (xs : List T) : Option (CopyArrayVec T) :=
  push_all xs (new T MAX)

end CopyArrayVec

/-- A structured serde decode error, as produced by
`serde::de::Error::invalid_length(len, expected)`. -/
inductive DeError where
  | invalid_length (len : Nat) (expected : String)
deriving DecidableEq

namespace CopyArrayVec

variable {T : Type}

/-- Model of the `Serialize` impl: `self.deref().serialize(serializer)` — the
encoded form is exactly the ordered sequence of live element values. -/
def serialize (c : CopyArrayVec T) : List T := c.deref.filterMap id

/-- Model of `Visit::visit_seq`: starting from `default()`, `try_push` each
decoded element; on the first failure return
`Error::invalid_length(arr.capacity() + 1, &"fewer elements in array")`
without consuming the rest. -/
def visit_seq : List T → CopyArrayVec T → Except DeError (CopyArrayVec T)
  | [], arr => Except.ok arr
  | el :: rest, arr =>
    match arr.try_push el with
    | (Except.ok _, arr2) => visit_seq rest arr2
    | (Except.error _, _) =>
        Except.error (DeError.invalid_length (arr.capacity + 1)
          "fewer elements in array")

/-- Model of the `Deserialize` impl: decode an ordered sequence by running
`visit_seq` on a fresh default container of capacity `MAX`. -/
def deserialize (T : Type) (MAX : Nat) (xs : List T) :
    Except DeError (CopyArrayVec T) :=
  visit_seq xs (new T MAX)

end CopyArrayVec

section Sanity

example : (CopyArrayVec.new Nat 3).push 7 =
    some ⟨3, [some 7, none, none], 1⟩ := by decide

example : CopyArrayVec.WF (⟨5, [some 4, some 2, some 5, none, none], 3⟩ :
    CopyArrayVec Nat) := by decide

end Sanity

namespace CopyArrayVec

variable {T : Type}

theorem length_ptr_copy (buf : List (Option T)) (src dst count : Nat) :
    (ptr_copy buf src dst count).length = buf.length := by
  simp [ptr_copy]

theorem getElem?_ptr_copy (buf : List (Option T)) (src dst count n : Nat)
    (hn : n < buf.length) :
    (ptr_copy buf src dst count)[n]? =
      some (if dst ≤ n ∧ n < dst + count then buf.getD (src + (n - dst)) none
        else buf.getD n none) := by
  unfold ptr_copy
  rw [List.getElem?_map, List.getElem?_range hn, Option.map_some']

theorem getD_eq_getElem_of_lt (buf : List (Option T)) (n : Nat)
    (hn : n < buf.length) : buf.getD n none = buf[n] := by
  rw [List.getD_eq_getElem?_getD, List.getElem?_eq_getElem hn, Option.getD_some]

theorem length_deref (c : CopyArrayVec T) (h : WF c) : c.deref.length = c.len := by
  obtain ⟨h1, h2, -⟩ := h
  rw [deref, List.length_take]
  omega

theorem take_succ_set (l : List (Option T)) (n : Nat) (a : Option T)
    (h : n < l.length) : (l.set n a).take (n + 1) = l.take n ++ [a] := by
  apply List.ext_getElem?
  intro m
  rcases Nat.lt_trichotomy m n with hm | hm | hm
  · rw [List.getElem?_take_of_lt (by omega), List.getElem?_set_ne (by omega),
      List.getElem?_append_left (by rw [List.length_take]; omega),
      List.getElem?_take_of_lt hm]
  · subst hm
    rw [List.getElem?_take_of_lt (by omega), List.getElem?_set_self h,
      List.getElem?_append_right (by rw [List.length_take]; omega)]
    have hl : (l.take m).length = m := by rw [List.length_take]; omega
    rw [hl, Nat.sub_self]
    rfl
  · rw [List.getElem?_eq_none (by rw [List.length_take]; omega),
      List.getElem?_eq_none
        (by rw [List.length_append, List.length_take]; simp; omega)]

theorem push_spec (c : CopyArrayVec T) (v : T) (h : WF c)
    (hlt : c.len < c.maxCap) :
    ∃ c2, c.push v = some c2 ∧ c2.maxCap = c.maxCap ∧ c2.len = c.len + 1 ∧
      c2.deref = c.deref ++ [some v] ∧ WF c2 := by
  obtain ⟨h1, h2, h3⟩ := h
  have hb : c.len < c.buf.length := by omega
  refine ⟨⟨c.maxCap, c.buf.set c.len (some v), c.len + 1⟩,
    by rw [push, if_pos hlt], rfl, rfl, ?_, ?_, ?_, ?_⟩
  · show (c.buf.set c.len (some v)).take (c.len + 1) = c.buf.take c.len ++ [some v]
    exact take_succ_set c.buf c.len (some v) hb
  · show (c.buf.set c.len (some v)).length = c.maxCap
    rw [List.length_set]; exact h1
  · show c.len + 1 ≤ c.maxCap
    omega
  · intro k hk
    have hk2 : k < c.len + 1 := hk
    show ((c.buf.set c.len (some v)).getD k none).isSome = true
    by_cases hkl : k = c.len
    · subst hkl
      rw [List.getD_eq_getElem?_getD, List.getElem?_set_self hb]
      rfl
    · have hk2 : k < c.len := by omega
      rw [List.getD_eq_getElem?_getD,
        List.getElem?_set_ne (fun he => hkl he.symm),
        ← List.getD_eq_getElem?_getD]
      exact h3 k hk2

theorem try_push_of_push (c : CopyArrayVec T) (v : T) (c2 : CopyArrayVec T)
    (hp : c.push v = some c2) : c.try_push v = (Except.ok (), c2) := by
  have hlt : c.len < c.maxCap := by
    by_contra hc
    rw [push, if_neg hc] at hp
    exact Option.noConfusion hp
  rw [try_push, if_pos (by unfold capacity_remaining; omega), hp]

theorem try_push_full (c : CopyArrayVec T) (v : T) (hfull : c.maxCap ≤ c.len) :
    c.try_push v = (Except.error v, c) := by
  rw [try_push, if_neg]
  unfold capacity_remaining
  omega

theorem push_all_ok (xs : List T) :
    ∀ c : CopyArrayVec T, WF c → xs.length + c.len ≤ c.maxCap →
      ∃ c2, push_all xs c = some c2 ∧ c2.maxCap = c.maxCap ∧
        c2.len = c.len + xs.length ∧ c2.deref = c.deref ++ xs.map some ∧
        WF c2 := by
  induction xs with
  | nil =>
    intro c h _
    exact ⟨c, rfl, rfl, by simp, by simp, h⟩
  | cons x xs ih =>
    intro c h hle
    have hlt : c.len < c.maxCap := by
      simp only [List.length_cons] at hle
      omega
    obtain ⟨c1, hp, hm, hl, hd, hw⟩ := push_spec c x h hlt
    obtain ⟨c2, hpa, hm2, hl2, hd2, hw2⟩ := ih c1 hw (by
      rw [hl, hm]
      simp only [List.length_cons] at hle
      omega)
    refine ⟨c2, ?_, by rw [hm2, hm], by rw [hl2, hl]; simp; omega, ?_, hw2⟩
    · simp only [push_all, hp]
      exact hpa
    · rw [hd2, hd]
      simp

theorem visit_seq_ok (xs : List T) :
    ∀ c : CopyArrayVec T, WF c → xs.length + c.len ≤ c.maxCap →
      ∃ c2, visit_seq xs c = Except.ok c2 ∧ c2.maxCap = c.maxCap ∧
        c2.len = c.len + xs.length ∧ c2.deref = c.deref ++ xs.map some ∧
        WF c2 := by
  induction xs with
  | nil =>
    intro c h _
    exact ⟨c, rfl, rfl, by simp, by simp, h⟩
  | cons x xs ih =>
    intro c h hle
    have hlt : c.len < c.maxCap := by
      simp only [List.length_cons] at hle
      omega
    obtain ⟨c1, hp, hm, hl, hd, hw⟩ := push_spec c x h hlt
    obtain ⟨c2, hpa, hm2, hl2, hd2, hw2⟩ := ih c1 hw (by
      rw [hl, hm]
      simp only [List.length_cons] at hle
      omega)
    refine ⟨c2, ?_, by rw [hm2, hm], by rw [hl2, hl]; simp; omega, ?_, hw2⟩
    · simp only [visit_seq, try_push_of_push c x c1 hp]
      exact hpa
    · rw [hd2, hd]
      simp

theorem visit_seq_overflow (xs : List T) :
    ∀ c : CopyArrayVec T, WF c → c.maxCap < xs.length + c.len →
      visit_seq xs c = Except.error
        (DeError.invalid_length (c.maxCap + 1) "fewer elements in array") := by
  induction xs with
  | nil =>
    intro c h hlt
    have := h.2.1
    simp only [List.length_nil] at hlt
    omega
  | cons x xs ih =>
    intro c h hlt
    by_cases hfull : c.len < c.maxCap
    · obtain ⟨c1, hp, hm, hl, hd, hw⟩ := push_spec c x h hfull
      have hrec := ih c1 hw (by
        rw [hl, hm]
        simp only [List.length_cons] at hlt
        omega)
      simp only [visit_seq, try_push_of_push c x c1 hp]
      rw [hrec, hm]
    · have ht := try_push_full c x (by omega)
      simp only [visit_seq, ht]
      rfl

theorem deref_isSome (c : CopyArrayVec T) (h : WF c) :
    ∀ o ∈ c.deref, o.isSome = true := by
  obtain ⟨h1, h2, h3⟩ := h
  intro o ho
  obtain ⟨k, hk, hko⟩ := List.getElem_of_mem ho
  have hkl : k < c.len := by
    rw [deref, List.length_take] at hk
    omega
  have hkb : k < c.buf.length := by omega
  have : c.deref[k]? = c.buf[k]? := by
    rw [deref, List.getElem?_take_of_lt hkl]
  rw [List.getElem?_eq_getElem hk, List.getElem?_eq_getElem hkb, hko] at this
  have hbk : c.buf[k] = o := (Option.some_inj.mp this).symm
  have := h3 k hkl
  rw [getD_eq_getElem_of_lt c.buf k hkb, hbk] at this
  exact this

theorem map_some_filterMap_id (l : List (Option T))
    (h : ∀ o ∈ l, o.isSome = true) : (l.filterMap id).map some = l := by
  induction l with
  | nil => rfl
  | cons o t ih =>
    obtain ⟨a, rfl⟩ := Option.isSome_iff_exists.mp (h o (List.mem_cons_self o t))
    have ht := ih (fun x hx => h x (List.mem_cons_of_mem _ hx))
    simp only [List.filterMap_cons, id, List.map_cons, ht]

theorem wf_new (MAX : Nat) : WF (new T MAX) := by
  refine ⟨by simp [new], by simp [new], ?_⟩
  intro k hk
  simp [new] at hk

theorem deref_new (MAX : Nat) : (new T MAX).deref = [] := by
  simp [new, deref]

end CopyArrayVec

/-- C1: the claim says `insert(i, value)` on a non-full container with
`i < len` shifts `[i, len)` up by one, writes `value` into slot `i` and
increments `len`, so the live sequence becomes the original with `value`
inserted at position `i`.  The code fails this: on the live sequence
`[4, 2, 5]` (capacity 5), `insert(1, 99)` shifts and bumps `len` but never
writes `99` anywhere, producing the live sequence `[4, 2, 2, 5]` instead of
`[4, 99, 2, 5]` — the old slot-`i` value is duplicated and `99` is lost. -/
theorem insert_never_writes_value :
    ((⟨5, [some 4, some 2, some 5, none, none], 3⟩ :
        CopyArrayVec Nat).insert 1 99).map CopyArrayVec.deref =
      some [some 4, some 2, some 2, some 5] ∧
    ((⟨5, [some 4, some 2, some 5, none, none], 3⟩ :
        CopyArrayVec Nat).insert 1 99).map CopyArrayVec.deref ≠
      some (List.insertIdx 1 (some 99) [some 4, some 2, some 5]) := by
  decide

/-- C2: the claim says `insert(i, v)` followed by `remove(i)` is the identity
on the live sequence and that the `remove` returns `v`.  On the live sequence
`[4, 2, 5]` (capacity 5) with `i = 1`, `v = 99`, the composite does restore
the original container, but `remove` returns `2` — the element that occupied
slot 1 before the insert — not `99`, because `insert` never wrote `99` into
slot 1. -/
theorem insert_remove_returns_wrong_value :
    ((⟨5, [some 4, some 2, some 5, none, none], 3⟩ :
        CopyArrayVec Nat).insert 1 99).bind (fun c1 => c1.remove 1) =
      some (2, ⟨5, [some 4, some 2, some 5, none, none], 3⟩) ∧
    (2 : Nat) ≠ 99 := by
  decide

/-- C3: the claim says `remove(i)` moves exactly `len - i - 1` elements —
the block `(i, len)` — and never touches the slot at index `len`.  The code
passes `self.len - i` as the `ptr::copy` count, so the move reads one slot
too many: already at `i = 0`, `len = 1` (e.g. `pop` on a one-element
container) the count is `1`, not `0`, and the single index read is `1 = len`
— an uninitialized slot, and one past the end of the buffer whenever
`len = MAX`. -/
theorem remove_copy_touches_slot_len :
    CopyArrayVec.remove_copy_count 1 0 = 1 ∧
    CopyArrayVec.copy_read_indices (CopyArrayVec.remove_copy_src 0)
        (CopyArrayVec.remove_copy_count 1 0) = [1] ∧
    ¬ CopyArrayVec.remove_touches_only_live 0 1 := by
  decide

/-- C4: for every well-formed container and every index `i < len`,
`remove(i)` succeeds, returns the value that occupied position `i` of the
live sequence, and leaves the live sequence equal to the original with the
entry at index `i` deleted (order elsewhere preserved) and `len` decreased
by one.  This holds even though the block move reads one slot too many: the
extra slot lands at index `len - 1` of the buffer, beyond the new live
range. -/
theorem remove_spec {T : Type} (c : CopyArrayVec T) (i : Nat)
    (h : CopyArrayVec.WF c) (hi : i < c.len) :
    ∃ v c2, c.remove i = some (v, c2) ∧ c.deref.getD i none = some v ∧
      c2.len = c.len - 1 ∧ c2.deref = c.deref.eraseIdx i := by
  obtain ⟨h1, h2, h3⟩ := h
  have hib : i < c.buf.length := by omega
  obtain ⟨v, hv⟩ := Option.isSome_iff_exists.mp (h3 i hi)
  refine ⟨v, ⟨c.maxCap,
      CopyArrayVec.ptr_copy c.buf (CopyArrayVec.remove_copy_src i) i
        (CopyArrayVec.remove_copy_count c.len i), c.len - 1⟩,
    by rw [CopyArrayVec.remove, if_pos hi, hv], ?_, rfl, ?_⟩
  · rw [CopyArrayVec.deref, List.getD_eq_getElem?_getD,
      List.getElem?_take_of_lt hi, ← List.getD_eq_getElem?_getD, hv]
  · show (CopyArrayVec.ptr_copy c.buf (CopyArrayVec.remove_copy_src i) i
        (CopyArrayVec.remove_copy_count c.len i)).take (c.len - 1) =
      (c.buf.take c.len).eraseIdx i
    rw [List.eraseIdx_eq_take_drop_succ]
    apply List.ext_getElem?
    intro n
    by_cases hn : n < c.len - 1
    · have hnb : n < c.buf.length := by omega
      rw [List.getElem?_take_of_lt hn,
        CopyArrayVec.getElem?_ptr_copy c.buf _ _ _ n hnb]
      by_cases hni : n < i
      · rw [if_neg (by omega : ¬ (i ≤ n ∧
            n < i + CopyArrayVec.remove_copy_count c.len i)),
          List.getElem?_append_left
            (by rw [List.length_take, List.length_take]; omega),
          List.getElem?_take_of_lt hni,
          List.getElem?_take_of_lt (by omega : n < c.len),
          CopyArrayVec.getD_eq_getElem_of_lt c.buf n hnb,
          List.getElem?_eq_getElem hnb]
      · have hni2 : i ≤ n := by omega
        have hcnt : n < i + CopyArrayVec.remove_copy_count c.len i := by
          unfold CopyArrayVec.remove_copy_count
          omega
        rw [if_pos ⟨hni2, hcnt⟩]
        have hsrc : CopyArrayVec.remove_copy_src i + (n - i) = n + 1 := by
          unfold CopyArrayVec.remove_copy_src
          omega
        rw [hsrc, List.getElem?_append_right
          (by rw [List.length_take, List.length_take]; omega)]
        have hlen1 : ((c.buf.take c.len).take i).length = i := by
          rw [List.length_take, List.length_take]
          omega
        rw [hlen1, List.getElem?_drop]
        have hidx : i + 1 + (n - i) = n + 1 := by omega
        rw [hidx, List.getElem?_take_of_lt (by omega : n + 1 < c.len),
          CopyArrayVec.getD_eq_getElem_of_lt c.buf (n + 1)
            (by omega : n + 1 < c.buf.length),
          List.getElem?_eq_getElem (by omega : n + 1 < c.buf.length)]
    · rw [List.getElem?_eq_none (by rw [List.length_take]; omega),
        List.getElem?_eq_none (by
          rw [List.length_append, List.length_take, List.length_take,
            List.length_drop, List.length_take]
          omega)]

/-- Witness for C4 at the spec's concrete scenario 1: capacity 5, live
sequence `[4, 2, 5]`, `remove(1)` returns `2` leaving `[4, 5]`. -/
theorem remove_spec_witness :
    CopyArrayVec.WF (⟨5, [some 4, some 2, some 5, none, none], 3⟩ :
      CopyArrayVec Nat) ∧
    1 < (⟨5, [some 4, some 2, some 5, none, none], 3⟩ :
      CopyArrayVec Nat).len ∧
    ∃ v c2, (⟨5, [some 4, some 2, some 5, none, none], 3⟩ :
        CopyArrayVec Nat).remove 1 = some (v, c2) ∧
      (⟨5, [some 4, some 2, some 5, none, none], 3⟩ :
        CopyArrayVec Nat).deref.getD 1 none = some v ∧
      c2.len = (⟨5, [some 4, some 2, some 5, none, none], 3⟩ :
        CopyArrayVec Nat).len - 1 ∧
      c2.deref = (⟨5, [some 4, some 2, some 5, none, none], 3⟩ :
        CopyArrayVec Nat).deref.eraseIdx 1 :=
  ⟨by decide, by decide,
    remove_spec (⟨5, [some 4, some 2, some 5, none, none], 3⟩ :
      CopyArrayVec Nat) 1 (by decide) (by decide)⟩

/-- C5 counterexample: the claim says `try_insert(i, value)` with
out-of-range `i > len` fails fatally even when the container is also full.
In the code the `is_full` check comes first: on the full one-slot container
holding `3`, `try_insert(5, 4)` returns `Err(4)` without mutation — a
recoverable failure, not a panic (a panic would be `none` in the model). -/
theorem try_insert_full_out_of_range_recoverable :
    (⟨1, [some 3], 1⟩ : CopyArrayVec Nat).try_insert 5 4 =
      some (Except.error 4, ⟨1, [some 3], 1⟩) ∧
    (⟨1, [some 3], 1⟩ : CopyArrayVec Nat).try_insert 5 4 ≠ none := by
  decide

/-- C5 (amended): `try_insert(i, value)` on a full container reports a
recoverable failure returning `value` unchanged with no mutation —
regardless of `i`, because the capacity check precedes any index
validation; on a non-full container with `i ≤ len` it behaves as `insert`
and reports success; on a non-full container with out-of-range `i > len`
it fails fatally. -/
theorem try_insert_spec {T : Type} (c : CopyArrayVec T) (i : Nat) (v : T) :
    (c.is_full = true → c.try_insert i v = some (Except.error v, c)) ∧
    (c.is_full = false → i ≤ c.len →
      ∃ c2, c.insert i v = some c2 ∧
        c.try_insert i v = some (Except.ok (), c2)) ∧
    (c.is_full = false → c.len < i → c.try_insert i v = none) := by
  refine ⟨?_, ?_, ?_⟩
  · intro hf
    rw [CopyArrayVec.try_insert, if_pos hf]
  · intro hf hi
    have hlt : c.len < c.maxCap := by
      simp only [CopyArrayVec.is_full, CopyArrayVec.capacity_remaining,
        beq_eq_false_iff_ne, ne_eq] at hf
      omega
    rcases Nat.lt_or_eq_of_le hi with hi2 | hi2
    · have hins : c.insert i v =
          some ⟨c.maxCap, CopyArrayVec.ptr_copy c.buf i (i + 1) (c.len - i),
            c.len + 1⟩ := by
        rw [CopyArrayVec.insert, if_neg (by simp [hf]),
          if_neg (by simp; omega), if_pos hi2]
      exact ⟨_, hins, by rw [CopyArrayVec.try_insert, if_neg (by simp [hf]),
        hins]⟩
    · have hins : c.insert i v =
          some ⟨c.maxCap, c.buf.set c.len (some v), c.len + 1⟩ := by
        rw [CopyArrayVec.insert, if_neg (by simp [hf]),
          if_pos (by simp [hi2]), CopyArrayVec.push, if_pos hlt]
      exact ⟨_, hins, by rw [CopyArrayVec.try_insert, if_neg (by simp [hf]),
        hins]⟩
  · intro hf hi
    have hins : c.insert i v = none := by
      rw [CopyArrayVec.insert, if_neg (by simp [hf]),
        if_neg (by simp; omega), if_neg (by omega)]
    rw [CopyArrayVec.try_insert, if_neg (by simp [hf]), hins]

/-- Witness for C5's amended claim: capacity-1 full container holding `3`
(recoverable `Err(4)` at index 0), and capacity-2 container holding `3`
(successful insert at index 1; fatal failure at index 5). -/
theorem try_insert_spec_witness :
    ((⟨1, [some 3], 1⟩ : CopyArrayVec Nat).is_full = true ∧
      (⟨1, [some 3], 1⟩ : CopyArrayVec Nat).try_insert 0 4 =
        some (Except.error 4, ⟨1, [some 3], 1⟩)) ∧
    ((⟨2, [some 3, none], 1⟩ : CopyArrayVec Nat).is_full = false ∧
      ∃ c2, (⟨2, [some 3, none], 1⟩ : CopyArrayVec Nat).insert 1 4 =
          some c2 ∧
        (⟨2, [some 3, none], 1⟩ : CopyArrayVec Nat).try_insert 1 4 =
          some (Except.ok (), c2)) ∧
    (⟨2, [some 3, none], 1⟩ : CopyArrayVec Nat).try_insert 5 4 = none :=
  ⟨⟨by decide,
      (try_insert_spec (⟨1, [some 3], 1⟩ : CopyArrayVec Nat) 0 4).1
        (by decide)⟩,
    ⟨by decide,
      (try_insert_spec (⟨2, [some 3, none], 1⟩ : CopyArrayVec Nat) 1 4).2.1
        (by decide) (by decide)⟩,
    (try_insert_spec (⟨2, [some 3, none], 1⟩ : CopyArrayVec Nat) 5 4).2.2
      (by decide) (by decide)⟩

/-- C6: decoding a sequence of more than `MAX` elements aborts at the first
element that would overflow — the resulting error does not depend on
anything after that element — reports the structured error
`invalid_length(MAX + 1, "fewer elements in array")`, whose count
`MAX + 1` is determined by (and so identifies) the `MAX`-element bound,
and yields no container. -/
theorem deserialize_overflow {T : Type} (MAX : Nat) (xs : List T)
    (h : MAX < xs.length) :
    CopyArrayVec.deserialize T MAX xs =
      Except.error (DeError.invalid_length (MAX + 1)
        "fewer elements in array") :=
  CopyArrayVec.visit_seq_overflow xs (CopyArrayVec.new T MAX)
    (CopyArrayVec.wf_new MAX)
    (by show MAX < xs.length + 0; omega)

/-- Witness for C6 at the spec's concrete scenario 4: `MAX = 3`, decoding
`[0, 1, 2, 3]` fails with `invalid_length(4, _)`, identifying the 3-element
bound. -/
theorem deserialize_overflow_witness :
    3 < ([0, 1, 2, 3] : List Nat).length ∧
    CopyArrayVec.deserialize Nat 3 [0, 1, 2, 3] =
      Except.error (DeError.invalid_length 4 "fewer elements in array") :=
  ⟨by decide, deserialize_overflow 3 [0, 1, 2, 3] (by decide)⟩

/-- C7: for every well-formed container, encoding the live sequence and
decoding the result at the same capacity succeeds and reproduces a container
whose live sequence equals the original's in order (and which the code's
equality judges equal to the original). -/
theorem serialize_roundtrip {T : Type} [DecidableEq T] (c : CopyArrayVec T)
    (h : CopyArrayVec.WF c) :
    (CopyArrayVec.deserialize T c.maxCap (CopyArrayVec.serialize c)).map
        CopyArrayVec.deref = Except.ok c.deref ∧
    ∃ c2, CopyArrayVec.deserialize T c.maxCap (CopyArrayVec.serialize c) =
        Except.ok c2 ∧ CopyArrayVec.beqv c2 c = true := by
  have hms : (CopyArrayVec.serialize c).map some = c.deref :=
    CopyArrayVec.map_some_filterMap_id c.deref (CopyArrayVec.deref_isSome c h)
  have hlen : (CopyArrayVec.serialize c).length = c.len := by
    have hc := congrArg List.length hms
    rw [List.length_map] at hc
    rw [hc, CopyArrayVec.length_deref c h]
  obtain ⟨c2, hvs, hm2, hl2, hd2, hw2⟩ := CopyArrayVec.visit_seq_ok
    (CopyArrayVec.serialize c) (CopyArrayVec.new T c.maxCap)
    (CopyArrayVec.wf_new c.maxCap)
    (by show (CopyArrayVec.serialize c).length + 0 ≤ c.maxCap
        rw [hlen]
        have := h.2.1
        omega)
  have hder : c2.deref = c.deref := by
    rw [hd2, CopyArrayVec.deref_new, List.nil_append, hms]
  refine ⟨?_, c2, hvs, ?_⟩
  · show (CopyArrayVec.visit_seq (CopyArrayVec.serialize c)
        (CopyArrayVec.new T c.maxCap)).map CopyArrayVec.deref =
      Except.ok c.deref
    rw [hvs]
    show Except.ok c2.deref = Except.ok c.deref
    rw [hder]
  · unfold CopyArrayVec.beqv
    rw [hder]
    exact decide_eq_true rfl

/-- Witness for C7: capacity 3, live sequence `[4, 7]`. -/
theorem serialize_roundtrip_witness :
    CopyArrayVec.WF (⟨3, [some 4, some 7, none], 2⟩ : CopyArrayVec Nat) ∧
    ((CopyArrayVec.deserialize Nat
          (⟨3, [some 4, some 7, none], 2⟩ : CopyArrayVec Nat).maxCap
          (CopyArrayVec.serialize
            (⟨3, [some 4, some 7, none], 2⟩ : CopyArrayVec Nat))).map
        CopyArrayVec.deref =
      Except.ok (⟨3, [some 4, some 7, none], 2⟩ : CopyArrayVec Nat).deref ∧
    ∃ c2, CopyArrayVec.deserialize Nat
          (⟨3, [some 4, some 7, none], 2⟩ : CopyArrayVec Nat).maxCap
          (CopyArrayVec.serialize
            (⟨3, [some 4, some 7, none], 2⟩ : CopyArrayVec Nat)) =
        Except.ok c2 ∧
      CopyArrayVec.beqv c2
        (⟨3, [some 4, some 7, none], 2⟩ : CopyArrayVec Nat) = true) :=
  ⟨by decide, serialize_roundtrip
    (⟨3, [some 4, some 7, none], 2⟩ : CopyArrayVec Nat) (by decide)⟩

/-- C8: building a fresh container by pushing exactly `MAX` elements
succeeds (order preserved); a `(MAX+1)`-th `push` fails fatally; and
`try_push` of the `(MAX+1)`-th element reports a recoverable failure
returning the value unchanged, with the container (hence `len` and the live
sequence) unmodified. -/
theorem push_capacity_boundary {T : Type} (MAX : Nat) (xs : List T) (v : T)
    (h : xs.length = MAX) :
    ∃ c, CopyArrayVec.from_iter T MAX xs = some c ∧ c.len = MAX ∧
      c.deref = xs.map some ∧ c.push v = none ∧
      c.try_push v = (Except.error v, c) := by
  obtain ⟨c, hpa, hm, hl, hd, hw⟩ := CopyArrayVec.push_all_ok xs
    (CopyArrayVec.new T MAX) (CopyArrayVec.wf_new MAX)
    (by show xs.length + 0 ≤ MAX; omega)
  have hm2 : c.maxCap = MAX := hm
  have hl2 : c.len = MAX := by
    rw [hl]
    show 0 + xs.length = MAX
    omega
  refine ⟨c, hpa, hl2, ?_, ?_, ?_⟩
  · rw [hd, CopyArrayVec.deref_new, List.nil_append]
  · rw [CopyArrayVec.push, if_neg (by omega)]
  · exact CopyArrayVec.try_push_full c v (by omega)

/-- Witness for C8: `MAX = 2`, elements `7, 8`, overflowing element `9`. -/
theorem push_capacity_boundary_witness :
    ([7, 8] : List Nat).length = 2 ∧
    ∃ c, CopyArrayVec.from_iter Nat 2 [7, 8] = some c ∧ c.len = 2 ∧
      c.deref = ([7, 8] : List Nat).map some ∧ c.push 9 = none ∧
      c.try_push 9 = (Except.error 9, c) :=
  ⟨by decide, push_capacity_boundary 2 [7, 8] 9 (by decide)⟩

/-- C9: the code's equality compares only the deref'd live slices, so it is
defined purely over the live-element sequence: replacing a well-formed
container's capacity by ANY other bound `m` and its uninitialized tail by
ANY other tail leaves it equal to the original — in particular two
containers with different `MAX` but equal live contents compare equal, and
capacity is never part of identity. -/
theorem beqv_ignores_capacity {T : Type} [DecidableEq T] (c : CopyArrayVec T)
    (h : CopyArrayVec.WF c) (m : Nat) (tail : List (Option T)) :
    CopyArrayVec.beqv c ⟨m, c.buf.take c.len ++ tail, c.len⟩ = true := by
  obtain ⟨h1, h2, -⟩ := h
  have hlen : (c.buf.take c.len).length = c.len := by
    rw [List.length_take]
    omega
  unfold CopyArrayVec.beqv
  apply decide_eq_true
  show c.deref = (c.buf.take c.len ++ tail).take c.len
  rw [List.take_left' hlen]
  rfl

/-- Witness for C9: a capacity-3 container with live sequence `[1, 2]`
compares equal to a capacity-5 container with the same live sequence and a
junk tail; the two capacities differ. -/
theorem beqv_ignores_capacity_witness :
    CopyArrayVec.WF (⟨3, [some 1, some 2, none], 2⟩ : CopyArrayVec Nat) ∧
    CopyArrayVec.beqv (⟨3, [some 1, some 2, none], 2⟩ : CopyArrayVec Nat)
      ⟨5, (⟨3, [some 1, some 2, none], 2⟩ :
          CopyArrayVec Nat).buf.take
          (⟨3, [some 1, some 2, none], 2⟩ : CopyArrayVec Nat).len ++
          [some 9, some 9, some 9],
        (⟨3, [some 1, some 2, none], 2⟩ : CopyArrayVec Nat).len⟩ = true ∧
    (3 : Nat) ≠ 5 :=
  ⟨by decide,
    beqv_ignores_capacity (⟨3, [some 1, some 2, none], 2⟩ : CopyArrayVec Nat)
      (by decide) 5 [some 9, some 9, some 9],
    by decide⟩

/-- C10: equality and hashing are coherent — for containers of the same
element type and the same `MAX`, if the code's equality accepts them then
they feed identical data to the hasher, because both equality and the hash
stream are computed from the deref'd live prefix alone. -/
theorem hash_follows_beqv {T : Type} [DecidableEq T] (a b : CopyArrayVec T)
    (_hcap : a.maxCap = b.maxCap) (heq : CopyArrayVec.beqv a b = true) :
    CopyArrayVec.hash_stream a = CopyArrayVec.hash_stream b := by
  have hd : a.deref = b.deref := of_decide_eq_true heq
  unfold CopyArrayVec.hash_stream
  rw [hd]

/-- Witness for C10: two equal capacity-2 containers with live sequence
`[1]` but different uninitialized tails feed the hasher the same stream. -/
theorem hash_follows_beqv_witness :
    (⟨2, [some 1, none], 1⟩ : CopyArrayVec Nat).maxCap =
      (⟨2, [some 1, some 5], 1⟩ : CopyArrayVec Nat).maxCap ∧
    CopyArrayVec.beqv (⟨2, [some 1, none], 1⟩ : CopyArrayVec Nat)
      (⟨2, [some 1, some 5], 1⟩ : CopyArrayVec Nat) = true ∧
    CopyArrayVec.hash_stream (⟨2, [some 1, none], 1⟩ : CopyArrayVec Nat) =
      CopyArrayVec.hash_stream
        (⟨2, [some 1, some 5], 1⟩ : CopyArrayVec Nat) :=
  ⟨by decide, by decide,
    hash_follows_beqv (⟨2, [some 1, none], 1⟩ : CopyArrayVec Nat)
      (⟨2, [some 1, some 5], 1⟩ : CopyArrayVec Nat) (by decide) (by decide)⟩
